import Mathlib

/-!
Shallow embedding of the crosvm FDT (Flattened Devicetree) serializer
(src/cros_fdt/src/fdt.rs) and verification of its specification claims.

Byte sequences are modelled as lists of natural numbers (each element a byte
value), Rust machine integers as natural numbers with explicit reduction
modulo two to the relevant power at the points where the source performs a
cast, and BTreeMap as an association list kept sorted by key (the BTreeMap
type invariant), with insertion preserving sortedness.  The host usize is
64 bits, so Vec lengths are unbounded naturals for the purposes of this
development.  Fallible operations return an Except value, and operations
that mutate through a mutable reference return the updated value paired
with an optional error.
-/

set_option maxRecDepth 100000

namespace CrosFdt

/-- Big-endian bytes of a u32 value; the argument is first reduced modulo
two to the 32nd, modelling the Rust cast to u32 that precedes to_be_bytes. -/
def u32be (n : Nat) : List Nat :=
  [n % 2 ^ 32 / 2 ^ 24, n % 2 ^ 32 / 2 ^ 16 % 2 ^ 8, n % 2 ^ 32 / 2 ^ 8 % 2 ^ 8, n % 2 ^ 32 % 2 ^ 8]

/-- Big-endian bytes of a u64 value, reduced modulo two to the 64th. -/
def u64be (n : Nat) : List Nat :=
  [n % 2 ^ 64 / 2 ^ 56, n % 2 ^ 64 / 2 ^ 48 % 2 ^ 8, n % 2 ^ 64 / 2 ^ 40 % 2 ^ 8,
   n % 2 ^ 64 / 2 ^ 32 % 2 ^ 8, n % 2 ^ 64 / 2 ^ 24 % 2 ^ 8, n % 2 ^ 64 / 2 ^ 16 % 2 ^ 8,
   n % 2 ^ 64 / 2 ^ 8 % 2 ^ 8, n % 2 ^ 64 % 2 ^ 8]

/-- Read a 32-bit big-endian value out of a byte list at a given offset
(out-of-range reads give zero).  Used to state header-field claims. -/
def readU32BE (bytes : List Nat) (off : Nat) : Nat :=
  match off, bytes with
  | 0, b0 :: b1 :: b2 :: b3 :: _ => b0 * 2 ^ 24 + b1 * 2 ^ 16 + b2 * 2 ^ 8 + b3
  | n + 1, _ :: rest => readU32BE rest n
  | _, _ => 0

def SIZE_U32 : Nat := 4
def SIZE_U64 : Nat := 8

def FDT_BEGIN_NODE : Nat := 0x00000001
def FDT_END_NODE : Nat := 0x00000002
def FDT_PROP : Nat := 0x00000003
def FDT_END : Nat := 0x00000009

/-- Number of padding bytes required to align size to alignment
(fn align_pad_len in the source). -/
def align_pad_len (size alignment : Nat) : Nat :=
  (alignment - size % alignment) % alignment

/-- Lexicographic order on byte strings: the order of Rust String keys in a
BTreeMap (String Ord compares UTF-8 bytes lexicographically). -/
def bytesLt : List Nat → List Nat → Bool
  | [], [] => false
  | [], _ :: _ => true
  | _ :: _, [] => false
  | a :: as, b :: bs => a < b || (a == b && bytesLt as bs)

/-- Insert a key-value pair into an association list kept sorted by key:
the behaviour of BTreeMap insert (replaces the value when the key is
already present, otherwise inserts at the ordered position). -/
def mapInsert {α : Type} (k : List Nat) (v : α) : List (List Nat × α) → List (List Nat × α)
  | [] => [(k, v)]
  | (k2, v2) :: rest =>
    if bytesLt k k2 then (k, v) :: (k2, v2) :: rest
    else if k = k2 then (k, v) :: rest
    else (k2, v2) :: mapInsert k v rest

/-- Key membership in an association list (BTreeMap contains_key). -/
def containsKey {α : Type} : List (List Nat × α) → List Nat → Bool
  | [], _ => false
  | (k2, _) :: rest, k => k2 = k || containsKey rest k

/-- Key lookup in an association list (BTreeMap get). -/
def lookupKey {α : Type} : List (List Nat × α) → List Nat → Option α
  | [], _ => none
  | (k2, v2) :: rest, k => if k2 = k then some v2 else lookupKey rest k

/-- Byte-level model of u8 is_ascii_alphanumeric. -/
def isAlnumByte (c : Nat) : Bool :=
  (48 ≤ c && c ≤ 57) || (65 ≤ c && c ≤ 90) || (97 ≤ c && c ≤ 122)

/-- fn is_valid_prop_name: every byte ASCII alphanumeric or one of
period, comma, underscore, plus, question mark, hash, hyphen. -/
def is_valid_prop_name (name : List Nat) : Bool :=
  name.all fun c =>
    isAlnumByte c || c == 46 || c == 44 || c == 95 || c == 43 || c == 63 || c == 35 || c == 45

/-- fn is_valid_node_name: at most one at-sign byte, and every byte ASCII
alphanumeric or one of period, comma, underscore, plus, hyphen, at-sign. -/
def is_valid_node_name (name : List Nat) : Bool :=
  if name.count 64 > 1 then false
  else name.all fun c =>
    isAlnumByte c || c == 46 || c == 44 || c == 95 || c == 43 || c == 45 || c == 64

/-- The error enum of the module (only the variants reachable in this
in-memory core; the I/O variants cannot arise when writing to a Vec). -/
inductive FdtError where
  | InvalidName (name : List Nat)
  | InvalidString (s : List Nat)
  | PropertyValueTooLarge
  | TotalSizeTooLarge
  deriving DecidableEq, Repr

/-- Typed property values accepted by set_prop. -/
inductive FdtPropval where
  | null
  | u32val (v : Nat)
  | u64val (v : Nat)
  | u32array (vs : List Nat)
  | u64array (vs : List Nat)
  | str (s : List Nat)
  | strList (ss : List (List Nat))
  | bytes (bs : List Nat)
  deriving DecidableEq, Repr

/-- Encode one string value: its bytes followed by one zero terminator,
rejected when a zero byte is embedded in the string. -/
def strPropBytes (s : List Nat) : Except FdtError (List Nat) :=
  if s.contains 0 then Except.error (FdtError.InvalidString s)
  else Except.ok (s ++ [0])

/-- Encode a string list value, each string terminated and packed
back-to-back, rejecting any string with an embedded terminator. -/
def strListPropBytes : List (List Nat) → Except FdtError (List Nat)
  | [] => Except.ok []
  | s :: rest =>
    match strPropBytes s with
    | Except.error e => Except.error e
    | Except.ok b =>
      match strListPropBytes rest with
      | Except.error e => Except.error e
      | Except.ok bs => Except.ok (b ++ bs)

/-- Modelled from the spec: the value-to-bytes converter (the ToFdtPropval
trait implementations, which live outside this source file).  Given a typed
value it produces an ordered byte sequence, or fails with InvalidString if
a string (or any string inside an array of strings) contains an embedded
terminator.  Kinds: empty payload, u32, u64, arrays of either (big-endian,
concatenated), a single terminated string, an array of strings each
individually terminated and packed back-to-back, and raw bytes. -/
def FdtPropval.to_propval : FdtPropval → Except FdtError (List Nat)
  | .null => Except.ok []
  | .u32val v => Except.ok (u32be v)
  | .u64val v => Except.ok (u64be v)
  | .u32array vs => Except.ok (vs.map u32be).flatten
  | .u64array vs => Except.ok (vs.map u64be).flatten
  | .str s => strPropBytes s
  | .strList ss => strListPropBytes ss
  | .bytes bs => Except.ok bs

/-- The FDT strings block: accumulated blob plus the offset map
(struct FdtStrings in the source). -/
structure FdtStrings where
  strings : List Nat
  string_offsets : List (List Nat × Nat)
  deriving DecidableEq, Repr

def FdtStrings.empty : FdtStrings := ⟨[], []⟩

/-- fn intern_string: return the stored offset when the string is already
present; otherwise append the string plus one zero terminator to the blob
and record the old blob length (cast to u32) as its offset. -/
def FdtStrings.intern_string (st : FdtStrings) (s : List Nat) : Nat × FdtStrings :=
  match lookupKey st.string_offsets s with
  | some off => (off, st)
  | none =>
    let off := st.strings.length % 2 ^ 32
    (off, ⟨st.strings ++ s ++ [0], (s, off) :: st.string_offsets⟩)

/-- A devicetree node (struct FdtNode): name, properties and subnodes.
The two BTreeMaps are modelled as association lists sorted by key. -/
inductive FdtNode where
  | mk (name : List Nat) (props : List (List Nat × List Nat))
       (subnodes : List (List Nat × FdtNode))

def FdtNode.name : FdtNode → List Nat
  | .mk n _ _ => n

def FdtNode.props : FdtNode → List (List Nat × List Nat)
  | .mk _ p _ => p

def FdtNode.subnodes : FdtNode → List (List Nat × FdtNode)
  | .mk _ _ s => s

/-- First property key in the map failing the property-name check, if any
(the loop over props.keys in FdtNode::new). -/
def firstInvalidPropName : List (List Nat × List Nat) → Option (List Nat)
  | [] => none
  | p :: rest => if is_valid_prop_name p.1 then firstInvalidPropName rest else some p.1

/-- fn FdtNode::new: validate the node name and every property key. -/
def FdtNode.new (name : List Nat) (props : List (List Nat × List Nat))
    (subnodes : List (List Nat × FdtNode)) : Except FdtError FdtNode :=
  if is_valid_node_name name then
    match firstInvalidPropName props with
    | some pname => Except.error (FdtError.InvalidName pname)
    | none => Except.ok (FdtNode.mk name props subnodes)
  else Except.error (FdtError.InvalidName name)

/-- fn FdtNode::empty. -/
def FdtNode.empty (name : List Nat) : Except FdtError FdtNode :=
  FdtNode.new name [] []

/-- fn set_prop: validate the name, convert the value, check the byte
length fits in a u32, then insert.  Returns the updated node paired with
an optional error (none on success); the node is returned unchanged on
every failure, mirroring that the Rust method mutates only on success. -/
def FdtNode.set_prop (n : FdtNode) (name : List Nat) (value : FdtPropval) :
    FdtNode × Option FdtError :=
  if is_valid_prop_name name then
    match value.to_propval with
    | Except.error e => (n, some e)
    | Except.ok bytes =>
      if bytes.length < 2 ^ 32 then
        (FdtNode.mk n.name (mapInsert name bytes n.props) n.subnodes, none)
      else (n, some FdtError.PropertyValueTooLarge)
  else (n, some (FdtError.InvalidName name))

/-- fn subnode_mut: insert an empty child under the name unless one is
already present; the child the caller receives is the one stored in the
updated node under that key. -/
def FdtNode.subnode_mut (n : FdtNode) (name : List Nat) : FdtNode × Option FdtError :=
  if containsKey n.subnodes name then (n, none)
  else
    match FdtNode.empty name with
    | Except.error e => (n, some e)
    | Except.ok c => (FdtNode.mk n.name n.props (mapInsert name c n.subnodes), none)

/-- The property loop of FdtNode::write_blob: for each property, the prop
token, the value length as u32, the interned name offset as u32, the raw
value, and zero padding to 4-byte alignment; the string table threads
through. -/
def writeProps : List (List Nat × List Nat) → FdtStrings → List Nat × FdtStrings
  | [], st => ([], st)
  | (pname, pblob) :: rest, st =>
    let ir := st.intern_string pname
    let r := writeProps rest ir.2
    (u32be FDT_PROP ++ u32be pblob.length ++ u32be ir.1 ++ pblob ++
       List.replicate (align_pad_len pblob.length SIZE_U32) 0 ++ r.1, r.2)

mutual

/-- fn FdtNode::write_blob: begin-node token, name with terminator padded
to 4-byte alignment, the properties in map order, the subnodes in map
order, and the end-node token. -/
def FdtNode.write_blob : FdtNode → FdtStrings → List Nat × FdtStrings
  | FdtNode.mk name props subnodes, st =>
    let pres := writeProps props st
    let cres := writeChildren subnodes pres.2
    (u32be FDT_BEGIN_NODE ++ name ++ [0] ++
       List.replicate (align_pad_len (name.length + 1) SIZE_U32) 0 ++
       pres.1 ++ cres.1 ++ u32be FDT_END_NODE, cres.2)

/-- The subnode loop of FdtNode::write_blob. -/
def writeChildren : List (List Nat × FdtNode) → FdtStrings → List Nat × FdtStrings
  | [], st => ([], st)
  | (_, c) :: rest, st =>
    let r := FdtNode.write_blob c st
    let rs := writeChildren rest r.2
    (r.1 ++ rs.1, rs.2)

end

/-- The FDT header (struct FdtHeader). -/
structure FdtHeader where
  magic : Nat
  total_size : Nat
  off_dt_struct : Nat
  off_dt_strings : Nat
  off_mem_rsvmap : Nat
  version : Nat
  last_comp_version : Nat
  boot_cpuid_phys : Nat
  size_dt_strings : Nat
  size_dt_struct : Nat
  deriving DecidableEq, Repr

def FdtHeader.MAGIC : Nat := 0xd00dfeed
def FdtHeader.VERSION : Nat := 17
def FdtHeader.LAST_COMP_VERSION : Nat := 16
def FdtHeader.SIZE : Nat := 10 * SIZE_U32

/-- fn FdtHeader::new. -/
def FdtHeader.new (total_size off_dt_struct off_dt_strings off_mem_rsvmap
    boot_cpuid_phys size_dt_strings size_dt_struct : Nat) : FdtHeader :=
  { magic := FdtHeader.MAGIC
    total_size := total_size
    off_dt_struct := off_dt_struct
    off_dt_strings := off_dt_strings
    off_mem_rsvmap := off_mem_rsvmap
    version := FdtHeader.VERSION
    last_comp_version := FdtHeader.LAST_COMP_VERSION
    boot_cpuid_phys := boot_cpuid_phys
    size_dt_strings := size_dt_strings
    size_dt_struct := size_dt_struct }

/-- fn FdtHeader::write_blob: the ten fields as consecutive 32-bit
big-endian words (the source writes them into a 40-byte buffer). -/
def FdtHeader.write_blob (h : FdtHeader) : List Nat :=
  u32be h.magic ++ u32be h.total_size ++ u32be h.off_dt_struct ++ u32be h.off_dt_strings ++
    u32be h.off_mem_rsvmap ++ u32be h.version ++ u32be h.last_comp_version ++
    u32be h.boot_cpuid_phys ++ u32be h.size_dt_strings ++ u32be h.size_dt_struct

/-- Reserved physical memory region (struct FdtReserveEntry). -/
structure FdtReserveEntry where
  address : Nat
  size : Nat
  deriving DecidableEq, Repr

/-- fn FdtReserveEntry::write_blob: address then size, 64-bit big-endian. -/
def FdtReserveEntry.write_blob (e : FdtReserveEntry) : List Nat :=
  u64be e.address ++ u64be e.size

def RESVMEM_TERMINATOR : FdtReserveEntry := ⟨0, 0⟩

/-- fn Fdt::write_reserved_memory: every entry in caller order followed by
the all-zero terminator entry. -/
def writeReservedMemory (entries : List FdtReserveEntry) : List Nat :=
  (entries.map FdtReserveEntry.write_blob).flatten ++ RESVMEM_TERMINATOR.write_blob

/-- The Fdt handle (struct Fdt). -/
structure Fdt where
  reserved_memory : List FdtReserveEntry
  root : FdtNode
  strings : FdtStrings
  boot_cpuid_phys : Nat

/-- fn Fdt::new: the root node is FdtNode::empty of the empty name,
unwrapped (the empty name passes validation, so the unwrap never aborts;
the fallback value is never used). -/
def Fdt.new (mem_reservations : List FdtReserveEntry) : Fdt :=
  { reserved_memory := mem_reservations
    root := (FdtNode.empty []).toOption.getD (FdtNode.mk [] [] [])
    strings := FdtStrings.empty
    boot_cpuid_phys := 0 }

/-- fn Fdt::write_struct: the root node blob followed by the end token. -/
def writeStruct (root : FdtNode) (st : FdtStrings) : List Nat × FdtStrings :=
  let r := root.write_blob st
  (r.1 ++ u32be FDT_END, r.2)

/-- Buffer contents of Fdt::finish before the reserved-memory block: the
zeroed header region padded to 8-byte alignment. -/
def preRsv : List Nat :=
  List.replicate FdtHeader.SIZE 0 ++
    List.replicate (align_pad_len FdtHeader.SIZE SIZE_U64) 0

/-- Buffer contents of Fdt::finish after the reserved-memory block. -/
def Fdt.rsvEnd (fdt : Fdt) : List Nat :=
  preRsv ++ writeReservedMemory fdt.reserved_memory

/-- Buffer contents of Fdt::finish at the start of the structure block
(reserved-memory block padded to 8-byte alignment); its length is the
off_dt_struct header field. -/
def Fdt.structStart (fdt : Fdt) : List Nat :=
  fdt.rsvEnd ++ List.replicate (align_pad_len fdt.rsvEnd.length SIZE_U64) 0

/-- The structure block of Fdt::finish and the string table it builds. -/
def Fdt.structRes (fdt : Fdt) : List Nat × FdtStrings :=
  writeStruct fdt.root fdt.strings

/-- Buffer contents of Fdt::finish at the start of the strings block
(structure block padded to 4-byte alignment); its length is the
off_dt_strings header field. -/
def Fdt.stringsStart (fdt : Fdt) : List Nat :=
  (fdt.structStart ++ fdt.structRes.1) ++
    List.replicate (align_pad_len (fdt.structStart ++ fdt.structRes.1).length SIZE_U32) 0

/-- Full buffer contents of Fdt::finish before the header is patched in. -/
def Fdt.body (fdt : Fdt) : List Nat :=
  fdt.stringsStart ++ fdt.structRes.2.strings

/-- fn Fdt::finish: assemble header region, reserved-memory block,
structure block and strings block with the alignment padding of the
source, fail when the total length does not fit in a u32, and otherwise
overwrite the header region in place with the computed header.  The
returned handle carries the string table mutated by the structure pass. -/
def Fdt.finish (fdt : Fdt) : Except FdtError (List Nat) × Fdt :=
  let fdt2 : Fdt := { fdt with strings := fdt.structRes.2 }
  if fdt.body.length < 2 ^ 32 then
    (Except.ok
      ((FdtHeader.new fdt.body.length fdt.structStart.length fdt.stringsStart.length
          preRsv.length fdt.boot_cpuid_phys
          (fdt.body.length - fdt.stringsStart.length)
          (fdt.stringsStart.length - fdt.structStart.length)).write_blob ++
        fdt.body.drop FdtHeader.SIZE),
     fdt2)
  else (Except.error FdtError.TotalSizeTooLarge, fdt2)

/-- Insert a pair into a key-sorted association list in front of the first
strictly greater key (used by the specification-side serializer). -/
def sortedInsert {α : Type} (x : List Nat × α) : List (List Nat × α) → List (List Nat × α)
  | [] => [x]
  | y :: l => if bytesLt x.1 y.1 then x :: y :: l else y :: sortedInsert x l

/-- Sort an association list by key, lexicographically (insertion sort). -/
def sortPairs {α : Type} (l : List (List Nat × α)) : List (List Nat × α) :=
  l.foldr sortedInsert []

/-- Specification-side property emission, following the spec text: for each
property a property marker, the 32-bit big-endian byte length of its value,
the 32-bit big-endian offset returned by interning its name into the string
table, the raw value bytes, and zero padding to 4-byte alignment. -/
def specWriteProps : List (List Nat × List Nat) → FdtStrings → List Nat × FdtStrings
  | [], st => ([], st)
  | (pname, pval) :: rest, st =>
    let ir := st.intern_string pname
    let r := specWriteProps rest ir.2
    (u32be 3 ++ u32be pval.length ++ u32be ir.1 ++ pval ++
       List.replicate (align_pad_len pval.length 4) 0 ++ r.1, r.2)

mutual

/-- Specification-side node serialization, following the spec text: a
begin-node marker, the name as a terminated byte string padded to 4-byte
alignment, the properties in lexicographic key order, the children
serialized recursively in lexicographic key order, an end-node marker. -/
def specWriteNode : FdtNode → FdtStrings → List Nat × FdtStrings
  | FdtNode.mk name props subnodes, st =>
    let pres := specWriteProps (sortPairs props) st
    let cres := specWriteChildren (sortPairs subnodes) pres.2
    (u32be 1 ++ name ++ [0] ++ List.replicate (align_pad_len (name.length + 1) 4) 0 ++
       pres.1 ++ cres.1 ++ u32be 2, cres.2)
termination_by n _ => sizeOf n
decreasing_by
  have hsi : ∀ (x : List Nat × FdtNode) (l : List (List Nat × FdtNode)),
      sizeOf (sortedInsert x l) = 1 + sizeOf x + sizeOf l := by
    intro x l
    induction l with
    | nil => simp [sortedInsert]
    | cons y t ih =>
      simp only [sortedInsert]
      split
      all_goals simp [ih]
      all_goals omega
  have hsp : ∀ (l : List (List Nat × FdtNode)), sizeOf (sortPairs l) = sizeOf l := by
    intro l
    induction l with
    | nil => rfl
    | cons y t ih =>
      show sizeOf (sortedInsert y (sortPairs t)) = _
      rw [hsi, ih]
      simp
  rw [hsp]
  simp

/-- Specification-side serialization of a list of children. -/
def specWriteChildren : List (List Nat × FdtNode) → FdtStrings → List Nat × FdtStrings
  | [], st => ([], st)
  | (_, c) :: rest, st =>
    let r := specWriteNode c st
    let rs := specWriteChildren rest r.2
    (r.1 ++ rs.1, rs.2)
termination_by l _ => sizeOf l
decreasing_by
  all_goals simp
  all_goals omega

end

/-- Keys of an association list are strictly sorted in lexicographic
order: the BTreeMap representation invariant. -/
def keysSorted {α : Type} (l : List (List Nat × α)) : Prop :=
  l.Pairwise fun a b => bytesLt a.1 b.1 = true

/-- Well-formed node: both maps sorted, recursively (always true of the
Rust representation, where the maps are BTreeMaps). -/
inductive NodeWF : FdtNode → Prop where
  | mk : ∀ (nm : List Nat) (ps : List (List Nat × List Nat))
      (sns : List (List Nat × FdtNode)),
      keysSorted ps → keysSorted sns → (∀ kc ∈ sns, NodeWF kc.2) →
      NodeWF (FdtNode.mk nm ps sns)

/-- One string table extends another: every interned string keeps its
offset. -/
def StrSub (st st2 : FdtStrings) : Prop :=
  ∀ s off, lookupKey st.string_offsets s = some off →
    lookupKey st2.string_offsets s = some off

/-- Intern a whole list of names in order, starting from the empty table. -/
def internAll (names : List (List Nat)) : FdtStrings :=
  names.foldl (fun st s => (st.intern_string s).2) FdtStrings.empty

/-- The distinct names of a list in first-use order. -/
def firstUses (names : List (List Nat)) : List (List Nat) :=
  names.foldl (fun acc s => if s ∈ acc then acc else acc ++ [s]) []

/-- The blob produced for the empty tree (the 0x48 bytes of the minimal
devicetree). -/
def c2bytes : List Nat :=
  [0xd0, 0x0d, 0xfe, 0xed, 0, 0, 0, 0x48, 0, 0, 0, 0x38, 0, 0, 0, 0x48,
   0, 0, 0, 0x28, 0, 0, 0, 0x11, 0, 0, 0, 0x10, 0, 0, 0, 0,
   0, 0, 0, 0, 0, 0, 0, 0x10, 0, 0, 0, 0, 0, 0, 0, 0,
   0, 0, 0, 0, 0, 0, 0, 0, 0, 0, 0, 1, 0, 0, 0, 0,
   0, 0, 0, 2, 0, 0, 0, 9]

/-- A small concrete well-formed node used by witnesses: one property and
one child that itself holds one property. -/
def demoNode : FdtNode :=
  FdtNode.mk [] [([97, 98, 99], [0x13, 0x57, 0x90, 0x24])]
    [([110, 101, 115, 116, 101, 100],
      FdtNode.mk [110, 101, 115, 116, 101, 100] [([100, 101, 102], [0x12, 0x12, 0x12, 0x12])] [])]

/-- One call of a tree-building sequence.  A caller holds a node only by
navigating from the root through subnode_mut, so a call is addressed by
the path of child names from the root, and performs one mutating method
there. -/
inductive BuildOp where
  | setProp (path : List (List Nat)) (name : List Nat) (value : FdtPropval)
  | subnode (path : List (List Nat)) (name : List Nat)

/-- Apply a node transformation at the node addressed by a path of child
names; a path through a missing child leaves the tree unchanged (no such
node exists for a caller to address). -/
def applyAt (f : FdtNode → FdtNode) : List (List Nat) → FdtNode → FdtNode
  | [], n => f n
  | p :: rest, FdtNode.mk nm ps sns =>
    match lookupKey sns p with
    | none => FdtNode.mk nm ps sns
    | some c => FdtNode.mk nm ps (mapInsert p (applyAt f rest c) sns)

/-- Apply one building call to the tree (failed calls mutate nothing, so
they are identities on the tree). -/
def applyOp (n : FdtNode) : BuildOp → FdtNode
  | BuildOp.setProp path name v => applyAt (fun m => (m.set_prop name v).1) path n
  | BuildOp.subnode path name => applyAt (fun m => (m.subnode_mut name).1) path n

/-- Apply a whole sequence of building calls, in order. -/
def applyOps (n : FdtNode) (ops : List BuildOp) : FdtNode :=
  ops.foldl applyOp n

/-- Two nodes carry the same property map and the same child map on each
node: same name, pointwise equal property lookups, the same child keys,
and recursively the same maps in matching children.  This is the claim's
notion of two call sequences building the same maps. -/
inductive TreeMapsEq : FdtNode → FdtNode → Prop where
  | mk : ∀ (n1 n2 : FdtNode),
      n1.name = n2.name →
      (∀ k, lookupKey n1.props k = lookupKey n2.props k) →
      (∀ k, (lookupKey n1.subnodes k).isSome ↔ (lookupKey n2.subnodes k).isSome) →
      (∀ k c1 c2, lookupKey n1.subnodes k = some c1 →
        lookupKey n2.subnodes k = some c2 → TreeMapsEq c1 c2) →
      TreeMapsEq n1 n2

/-- A building sequence used by witnesses: a root property, a child, and a
property on that nested child. -/
def demoOps1 : List BuildOp :=
  [BuildOp.setProp [] [97] (FdtPropval.u32val 1),
   BuildOp.subnode [] [99, 104],
   BuildOp.setProp [[99, 104]] [98] (FdtPropval.u32val 2)]

/-- The same calls as demoOps1 in a different order (the nested-child
property is set before the root property). -/
def demoOps2 : List BuildOp :=
  [BuildOp.subnode [] [99, 104],
   BuildOp.setProp [[99, 104]] [98] (FdtPropval.u32val 2),
   BuildOp.setProp [] [97] (FdtPropval.u32val 1)]

@[simp]
theorem length_u32be (n : Nat) : (u32be n).length = 4 := rfl

@[simp]
theorem length_u64be (n : Nat) : (u64be n).length = 8 := rfl

theorem align_pad_total8 (n : Nat) : (n + align_pad_len n 8) % 8 = 0 := by
  unfold align_pad_len
  omega

theorem align_pad_total4 (n : Nat) : (n + align_pad_len n 4) % 4 = 0 := by
  unfold align_pad_len
  omega

/-- C2: a freshly constructed Fdt with no reserved-memory entries, no
properties and no children finishes successfully into exactly the 0x48-byte
minimal blob: the header with magic 0xd00dfeed, total_size 0x48,
off_dt_struct 0x38, off_dt_strings 0x48, off_mem_rsvmap 0x28, version 17,
last_comp_version 16, boot_cpuid_phys 0, size_dt_strings 0, size_dt_struct
0x10; a 16-byte all-zero reserved-map terminator at offset 0x28; begin-node,
a zero name byte plus three padding bytes, end-node and end markers at
offsets 0x38 to 0x47; and an empty strings block. -/
theorem finish_empty_tree_bytes :
    (Fdt.new []).finish.1 = Except.ok c2bytes ∧ c2bytes.length = 0x48 :=
  ⟨rfl, rfl⟩

/-- C10: Fdt::new is total for every reserved-memory slice: the root is
built from the empty name, which the node-name validator accepts, so the
internal unwrap never aborts and the handle holds exactly the given
reservations, an empty root and an empty string table. -/
theorem fdt_new_total :
    is_valid_node_name [] = true ∧
    FdtNode.empty [] = Except.ok (FdtNode.mk [] [] []) ∧
    ∀ mem : List FdtReserveEntry,
      Fdt.new mem =
        { reserved_memory := mem, root := FdtNode.mk [] [] [],
          strings := FdtStrings.empty, boot_cpuid_phys := 0 } :=
  ⟨rfl, rfl, fun _ => rfl⟩

/-- C9: the reserved-memory block is every entry in caller order as a
64-bit big-endian address followed by a 64-bit big-endian size, then one
all-zero terminator entry, for a total of 16 times one more than the
number of entries. -/
theorem reserved_memory_block_layout (entries : List FdtReserveEntry) :
    writeReservedMemory entries =
      (entries.map fun e => u64be e.address ++ u64be e.size).flatten ++
        List.replicate 16 0 ∧
    (writeReservedMemory entries).length = 16 * (entries.length + 1) := by
  constructor
  · rfl
  · induction entries with
    | nil => rfl
    | cons e t ih =>
      simp only [writeReservedMemory, List.map_cons, List.flatten_cons,
        List.length_append, List.length_cons] at ih ⊢
      simp only [FdtReserveEntry.write_blob, List.length_append, length_u64be] at ih ⊢
      omega

theorem reserved_memory_block_layout_witness :
    writeReservedMemory [⟨0x12345678AABBCCDD, 0x1234⟩] =
      ([(⟨0x12345678AABBCCDD, 0x1234⟩ : FdtReserveEntry)].map
        fun e => u64be e.address ++ u64be e.size).flatten ++ List.replicate 16 0 ∧
    (writeReservedMemory [(⟨0x12345678AABBCCDD, 0x1234⟩ : FdtReserveEntry)]).length = 32 :=
  reserved_memory_block_layout [⟨0x12345678AABBCCDD, 0x1234⟩]

/-- C8: the property-name validator accepts exactly the byte strings whose
bytes are ASCII alphanumeric or one of period, comma, underscore, plus,
question mark, hash, hyphen; the node-name validator accepts exactly the
byte strings whose bytes are ASCII alphanumeric or one of period, comma,
underscore, plus, hyphen, at-sign, with at most one at-sign.  Both are
pure boolean predicates. -/
theorem name_validators_characterization (name : List Nat) :
    (is_valid_prop_name name = true ↔
      ∀ b ∈ name, (48 ≤ b ∧ b ≤ 57) ∨ (65 ≤ b ∧ b ≤ 90) ∨ (97 ≤ b ∧ b ≤ 122) ∨
        b = 46 ∨ b = 44 ∨ b = 95 ∨ b = 43 ∨ b = 63 ∨ b = 35 ∨ b = 45) ∧
    (is_valid_node_name name = true ↔
      ((∀ b ∈ name, (48 ≤ b ∧ b ≤ 57) ∨ (65 ≤ b ∧ b ≤ 90) ∨ (97 ≤ b ∧ b ≤ 122) ∨
          b = 46 ∨ b = 44 ∨ b = 95 ∨ b = 43 ∨ b = 45 ∨ b = 64) ∧
        name.count 64 ≤ 1)) := by
  constructor
  · unfold is_valid_prop_name
    rw [List.all_eq_true]
    constructor
    · intro h b hb
      have hx := h b hb
      simp [isAlnumByte] at hx
      omega
    · intro h b hb
      have hx := h b hb
      simp [isAlnumByte]
      omega
  · unfold is_valid_node_name
    split
    · rename_i hcnt
      constructor
      · intro hfalse
        cases hfalse
      · intro hx
        omega
    · rename_i hcnt
      rw [List.all_eq_true]
      constructor
      · intro h
        refine ⟨fun b hb => ?_, by omega⟩
        have hx := h b hb
        simp [isAlnumByte] at hx
        omega
      · intro h b hb
        have hx := h.1 b hb
        simp [isAlnumByte]
        omega

theorem name_validators_characterization_witness :
    (is_valid_prop_name [117, 51, 50] = true ↔
      ∀ b ∈ [117, 51, 50], (48 ≤ b ∧ b ≤ 57) ∨ (65 ≤ b ∧ b ≤ 90) ∨ (97 ≤ b ∧ b ≤ 122) ∨
        b = 46 ∨ b = 44 ∨ b = 95 ∨ b = 43 ∨ b = 63 ∨ b = 35 ∨ b = 45) ∧
    (is_valid_node_name [117, 51, 50] = true ↔
      ((∀ b ∈ [117, 51, 50], (48 ≤ b ∧ b ≤ 57) ∨ (65 ≤ b ∧ b ≤ 90) ∨ (97 ≤ b ∧ b ≤ 122) ∨
          b = 46 ∨ b = 44 ∨ b = 95 ∨ b = 43 ∨ b = 45 ∨ b = 64) ∧
        List.count 64 [117, 51, 50] ≤ 1)) :=
  name_validators_characterization [117, 51, 50]

theorem intern_found (st : FdtStrings) (s : List Nat) (off : Nat)
    (h : lookupKey st.string_offsets s = some off) :
    st.intern_string s = (off, st) := by
  unfold FdtStrings.intern_string
  rw [h]

theorem intern_new (st : FdtStrings) (s : List Nat)
    (h : lookupKey st.string_offsets s = none) :
    st.intern_string s = (st.strings.length % 2 ^ 32,
      ⟨st.strings ++ s ++ [0], (s, st.strings.length % 2 ^ 32) :: st.string_offsets⟩) := by
  unfold FdtStrings.intern_string
  rw [h]

theorem internAll_strings_aux :
    ∀ (names : List (List Nat)) (st : FdtStrings) (acc : List (List Nat)),
      st.strings = (acc.map fun s => s ++ [0]).flatten →
      (∀ s, (lookupKey st.string_offsets s).isSome ↔ s ∈ acc) →
      (names.foldl (fun st2 s => (st2.intern_string s).2) st).strings =
        ((names.foldl (fun a s => if s ∈ a then a else a ++ [s]) acc).map
          fun s => s ++ [0]).flatten := by
  intro names
  induction names with
  | nil =>
    intro st acc h1 _
    simpa using h1
  | cons s rest ih =>
    intro st acc h1 h2
    simp only [List.foldl_cons]
    by_cases hs : s ∈ acc
    · have hlk : (lookupKey st.string_offsets s).isSome := (h2 s).2 hs
      obtain ⟨off, hoff⟩ := Option.isSome_iff_exists.1 hlk
      rw [intern_found st s off hoff, if_pos hs]
      exact ih st acc h1 h2
    · have hlk : lookupKey st.string_offsets s = none := by
        rcases hcase : lookupKey st.string_offsets s with _ | off
        · rfl
        · exact absurd ((h2 s).1 (by simp [hcase])) hs
      rw [intern_new st s hlk, if_neg hs]
      apply ih
      · simp [h1]
      · intro t
        by_cases hst : s = t
        · subst hst
          simp [lookupKey]
        · simp [lookupKey, hst, h2 t]
          intro ht
          exact absurd ht.symm hst

/-- C6 (amended): interning a name already present returns the previously
assigned offset and leaves the table unchanged; interning a new name
appends the name bytes plus one zero terminator byte and returns the blob
length before the append reduced modulo 2 to the 32nd (the u32 cast in the
source); every distinct name interned appears exactly once in the strings
blob, in first-use order; and repeated interning of the same name yields
the same offset. -/
theorem intern_string_behavior :
    (∀ (st : FdtStrings) (s : List Nat) (off : Nat),
        lookupKey st.string_offsets s = some off → st.intern_string s = (off, st)) ∧
    (∀ (st : FdtStrings) (s : List Nat),
        lookupKey st.string_offsets s = none →
        st.intern_string s = (st.strings.length % 2 ^ 32,
          ⟨st.strings ++ s ++ [0], (s, st.strings.length % 2 ^ 32) :: st.string_offsets⟩)) ∧
    (∀ names : List (List Nat),
        (internAll names).strings = ((firstUses names).map fun s => s ++ [0]).flatten) ∧
    (∀ (st : FdtStrings) (s : List Nat),
        (((st.intern_string s).2).intern_string s).1 = (st.intern_string s).1) := by
  refine ⟨intern_found, intern_new, ?_, ?_⟩
  · intro names
    exact internAll_strings_aux names FdtStrings.empty [] rfl (by simp [FdtStrings.empty, lookupKey])
  · intro st s
    rcases hcase : lookupKey st.string_offsets s with _ | off
    · rw [intern_new st s hcase]
      simp [FdtStrings.intern_string, lookupKey]
    · rw [intern_found st s off hcase]
      simp [intern_found st s off hcase]

theorem intern_string_behavior_witness :
    FdtStrings.intern_string ⟨[107, 0], [([107], 0)]⟩ [107] = (0, ⟨[107, 0], [([107], 0)]⟩) :=
  intern_string_behavior.1 ⟨[107, 0], [([107], 0)]⟩ [107] 0 (by decide)

/-- C6 counterexample: once the strings blob has grown past 2 to the 32nd
bytes (here by interning one name of 2 to the 32nd bytes), interning a new
name returns the old blob length reduced modulo 2 to the 32nd (here 1)
rather than the old blob length itself (here 2 to the 32nd plus 1), because
the source casts the length to u32. -/
theorem intern_offset_truncation_cex :
    ((FdtStrings.intern_string
        (FdtStrings.intern_string FdtStrings.empty (List.replicate (2 ^ 32) 97)).2
        [98]).1 = 1) ∧
    (((FdtStrings.intern_string FdtStrings.empty
        (List.replicate (2 ^ 32) 97)).2).strings.length = 2 ^ 32 + 1) ∧
    ((FdtStrings.intern_string
        (FdtStrings.intern_string FdtStrings.empty (List.replicate (2 ^ 32) 97)).2
        [98]).1 ≠
      ((FdtStrings.intern_string FdtStrings.empty
        (List.replicate (2 ^ 32) 97)).2).strings.length) := by
  have key : ∀ s1 : List Nat, s1.length = 2 ^ 32 → s1 ≠ [98] →
      ((FdtStrings.intern_string
          (FdtStrings.intern_string FdtStrings.empty s1).2 [98]).1 = 1) ∧
      (((FdtStrings.intern_string FdtStrings.empty s1).2).strings.length = 2 ^ 32 + 1) ∧
      ((FdtStrings.intern_string
          (FdtStrings.intern_string FdtStrings.empty s1).2 [98]).1 ≠
        ((FdtStrings.intern_string FdtStrings.empty s1).2).strings.length) := by
    intro s1 hlen hne98
    have h1 : FdtStrings.intern_string FdtStrings.empty s1 = (0, ⟨s1 ++ [0], [(s1, 0)]⟩) := by
      rw [intern_new FdtStrings.empty _ rfl]
      simp [FdtStrings.empty]
    have hnl : lookupKey [(s1, 0)] [98] = none := by
      simp [lookupKey, hne98]
    have h2 : (FdtStrings.intern_string (⟨s1 ++ [0], [(s1, 0)]⟩ : FdtStrings) [98]).1 = 1 := by
      rw [intern_new _ _ hnl]
      show (s1 ++ [0]).length % 2 ^ 32 = 1
      rw [List.length_append, hlen]
      norm_num
    have h3 : ((⟨s1 ++ [0], [(s1, 0)]⟩ : FdtStrings)).strings.length = 2 ^ 32 + 1 := by
      show (s1 ++ [0]).length = 2 ^ 32 + 1
      rw [List.length_append, hlen]
      norm_num
    refine ⟨by rw [h1]; exact h2, by rw [h1]; exact h3, ?_⟩
    rw [h1, h2, h3]
    omega
  exact key (List.replicate (2 ^ 32) 97)
    (by rw [List.length_replicate])
    (by
      intro hcontra
      have hlen2 := congrArg List.length hcontra
      rw [List.length_replicate, List.length_cons, List.length_nil] at hlen2
      omega)

theorem strList_err (ss : List (List Nat)) (hb : ∃ s ∈ ss, s.contains 0 = true) :
    ∃ t, t.contains 0 = true ∧
      strListPropBytes ss = Except.error (FdtError.InvalidString t) := by
  induction ss with
  | nil =>
    obtain ⟨s, hs, _⟩ := hb
    cases hs
  | cons a rest ih =>
    obtain ⟨s, hs, hc⟩ := hb
    by_cases ha : (0 : Nat) ∈ a
    · exact ⟨a, by simpa using ha, by simp [strListPropBytes, strPropBytes, ha]⟩
    · have hs2 : s ∈ rest := by
        rcases List.mem_cons.1 hs with hEq | hm
        · subst hEq
          exact absurd (by simpa using hc) ha
        · exact hm
      obtain ⟨t, ht, he⟩ := ih ⟨s, hs2, hc⟩
      refine ⟨t, ht, ?_⟩
      simp [strListPropBytes, strPropBytes, ha, he]

/-- C7: set_prop fails with InvalidName when the name fails the
property-name validator, with InvalidString when a string value (or a
member of a string-list value) contains an embedded terminator, and with
PropertyValueTooLarge when the converted value length does not fit in a
u32; on every failure the node is returned exactly as it was, and on
success the converted bytes are inserted (or overwritten) under the key
with the subnodes untouched. -/
theorem set_prop_error_behavior :
    (∀ (n : FdtNode) (name : List Nat) (v : FdtPropval),
        is_valid_prop_name name = false →
        n.set_prop name v = (n, some (FdtError.InvalidName name))) ∧
    (∀ (n : FdtNode) (name s : List Nat),
        is_valid_prop_name name = true → s.contains 0 = true →
        n.set_prop name (FdtPropval.str s) = (n, some (FdtError.InvalidString s))) ∧
    (∀ (n : FdtNode) (name : List Nat) (ss : List (List Nat)) (s : List Nat),
        is_valid_prop_name name = true → s ∈ ss → s.contains 0 = true →
        ∃ t, t.contains 0 = true ∧
          n.set_prop name (FdtPropval.strList ss) = (n, some (FdtError.InvalidString t))) ∧
    (∀ (n : FdtNode) (name bs : List Nat),
        is_valid_prop_name name = true → 2 ^ 32 ≤ bs.length →
        n.set_prop name (FdtPropval.bytes bs) = (n, some FdtError.PropertyValueTooLarge)) ∧
    (∀ (n : FdtNode) (name : List Nat) (v : FdtPropval) (e : FdtError),
        (n.set_prop name v).2 = some e → (n.set_prop name v).1 = n) ∧
    (∀ (n : FdtNode) (name : List Nat) (v : FdtPropval) (bs : List Nat),
        v.to_propval = Except.ok bs → (n.set_prop name v).2 = none →
        (n.set_prop name v).1 =
          FdtNode.mk n.name (mapInsert name bs n.props) n.subnodes) := by
  refine ⟨?_, ?_, ?_, ?_, ?_, ?_⟩
  · intro n name v hv
    simp [FdtNode.set_prop, hv]
  · intro n name s hv hc
    have hc2 : (0 : Nat) ∈ s := by simpa using hc
    simp [FdtNode.set_prop, hv, FdtPropval.to_propval, strPropBytes, hc2]
  · intro n name ss s hv hs hc
    obtain ⟨t, ht, he⟩ := strList_err ss ⟨s, hs, hc⟩
    refine ⟨t, ht, ?_⟩
    simp [FdtNode.set_prop, hv, FdtPropval.to_propval, he]
  · intro n name bs hv hlen
    have hnl : ¬ bs.length < 2 ^ 32 := by omega
    simp [FdtNode.set_prop, hv, FdtPropval.to_propval, hnl]
    omega
  · intro n name v e h
    by_cases hv : is_valid_prop_name name = true
    · rcases hok : v.to_propval with e2 | bs
      · have heq : n.set_prop name v = (n, some e2) := by
          simp [FdtNode.set_prop, hv, hok]
        rw [heq]
      · by_cases hlen : bs.length < 2 ^ 32
        · have heq : n.set_prop name v =
              (FdtNode.mk n.name (mapInsert name bs n.props) n.subnodes, none) := by
            simp [FdtNode.set_prop, hv, hok, hlen]
            omega
          rw [heq] at h
          cases h
        · have heq : n.set_prop name v = (n, some FdtError.PropertyValueTooLarge) := by
            simp [FdtNode.set_prop, hv, hok, hlen]
            omega
          rw [heq]
    · have heq : n.set_prop name v = (n, some (FdtError.InvalidName name)) := by
        simp [FdtNode.set_prop, hv]
      rw [heq]
  · intro n name v bs hok h
    by_cases hv : is_valid_prop_name name = true
    · by_cases hlen : bs.length < 2 ^ 32
      · have heq : n.set_prop name v =
            (FdtNode.mk n.name (mapInsert name bs n.props) n.subnodes, none) := by
          simp [FdtNode.set_prop, hv, hok, hlen]
          omega
        rw [heq]
      · have heq : n.set_prop name v = (n, some FdtError.PropertyValueTooLarge) := by
          simp [FdtNode.set_prop, hv, hok, hlen]
          omega
        simp [heq] at h
    · have heq : n.set_prop name v = (n, some (FdtError.InvalidName name)) := by
        simp [FdtNode.set_prop, hv]
      simp [heq] at h

theorem set_prop_error_behavior_witness :
    (FdtNode.mk [] [] []).set_prop [98, 97, 100, 32, 110, 97, 109, 101, 33]
        (FdtPropval.u32val 0) =
      (FdtNode.mk [] [] [],
        some (FdtError.InvalidName [98, 97, 100, 32, 110, 97, 109, 101, 33])) :=
  set_prop_error_behavior.1 _ _ _ (by decide)

@[simp]
theorem FdtNode.name_mk (nm : List Nat) (ps : List (List Nat × List Nat))
    (sns : List (List Nat × FdtNode)) : (FdtNode.mk nm ps sns).name = nm := rfl

@[simp]
theorem FdtNode.props_mk (nm : List Nat) (ps : List (List Nat × List Nat))
    (sns : List (List Nat × FdtNode)) : (FdtNode.mk nm ps sns).props = ps := rfl

@[simp]
theorem FdtNode.subnodes_mk (nm : List Nat) (ps : List (List Nat × List Nat))
    (sns : List (List Nat × FdtNode)) : (FdtNode.mk nm ps sns).subnodes = sns := rfl

theorem bytesLt_irrefl (a : List Nat) : bytesLt a a = false := by
  induction a with
  | nil => rfl
  | cons x xs ih => simp [bytesLt, ih]

theorem bytesLt_asymm : ∀ a b : List Nat, bytesLt a b = true → bytesLt b a = false := by
  intro a
  induction a with
  | nil =>
    intro b h
    cases b with
    | nil => simp [bytesLt] at h
    | cons y ys => rfl
  | cons x xs ih =>
    intro b h
    cases b with
    | nil => simp [bytesLt] at h
    | cons y ys =>
      simp [bytesLt] at h ⊢
      rcases h with h1 | ⟨h1, h2⟩
      · constructor
        · omega
        · intro hyx
          omega
      · constructor
        · omega
        · intro hyx
          exact ih ys h2

theorem bytesLt_trans : ∀ a b c : List Nat,
    bytesLt a b = true → bytesLt b c = true → bytesLt a c = true := by
  intro a
  induction a with
  | nil =>
    intro b c hab hbc
    cases b with
    | nil => simp [bytesLt] at hab
    | cons y ys =>
      cases c with
      | nil => simp [bytesLt] at hbc
      | cons z zs => rfl
  | cons x xs ih =>
    intro b c hab hbc
    cases b with
    | nil => simp [bytesLt] at hab
    | cons y ys =>
      cases c with
      | nil => simp [bytesLt] at hbc
      | cons z zs =>
        simp [bytesLt] at hab hbc ⊢
        rcases hab with h1 | ⟨h1, h2⟩ <;> rcases hbc with g1 | ⟨g1, g2⟩
        · left; omega
        · left; omega
        · left; omega
        · right
          exact ⟨by omega, ih ys zs h2 g2⟩

theorem bytesLt_total : ∀ a b : List Nat, a ≠ b →
    bytesLt a b = true ∨ bytesLt b a = true := by
  intro a
  induction a with
  | nil =>
    intro b hne
    cases b with
    | nil => exact absurd rfl hne
    | cons y ys => exact Or.inl rfl
  | cons x xs ih =>
    intro b hne
    cases b with
    | nil => exact Or.inr rfl
    | cons y ys =>
      by_cases hxy : x = y
      · subst hxy
        have hne2 : xs ≠ ys := by
          intro h
          exact hne (by rw [h])
        rcases ih ys hne2 with h | h
        · left; simp [bytesLt, h]
        · right; simp [bytesLt, h]
      · by_cases hlt : x < y
        · left; simp [bytesLt, hlt]
        · right
          simp [bytesLt]
          left
          omega

theorem mapInsert_comm_aux {α : Type} (k1 k2 : List Nat) (v1 v2 : α)
    (hlt : bytesLt k1 k2 = true) :
    ∀ m, mapInsert k2 v2 (mapInsert k1 v1 m) = mapInsert k1 v1 (mapInsert k2 v2 m) := by
  have hne : k1 ≠ k2 := by
    intro h
    subst h
    rw [bytesLt_irrefl] at hlt
    cases hlt
  have hba : bytesLt k2 k1 = false := bytesLt_asymm _ _ hlt
  intro m
  induction m with
  | nil => simp [mapInsert, hlt, hba, hne, Ne.symm hne]
  | cons y m ih =>
    obtain ⟨ky, vy⟩ := y
    by_cases c1 : bytesLt k1 ky = true
    · by_cases c2 : bytesLt k2 ky = true
      · simp [mapInsert, c1, c2, hlt, hba, hne, Ne.symm hne]
      · by_cases e2 : k2 = ky
        · have hyk1 : bytesLt ky k1 = false := by
            rw [← e2]
            exact hba
          have hyne : ky ≠ k1 := by
            rw [← e2]
            exact Ne.symm hne
          simp [mapInsert, c1, e2, hba, hne, Ne.symm hne, bytesLt_irrefl, hyk1, hyne, hlt]
        · simp [mapInsert, c1, c2, e2, hlt, hba, hne, Ne.symm hne]
    · by_cases e1 : k1 = ky
      · subst e1
        simp [mapInsert, c1, bytesLt_irrefl, hba, hlt, hne, Ne.symm hne]
      · by_cases c2 : bytesLt k2 ky = true
        · exact absurd (bytesLt_trans _ _ _ hlt c2) c1
        · by_cases e2 : k2 = ky
          · subst e2
            exact absurd hlt c1
          · simp [mapInsert, c1, e1, c2, e2, ih]

theorem mapInsert_comm {α : Type} (k1 k2 : List Nat) (v1 v2 : α) (h : k1 ≠ k2) :
    ∀ m, mapInsert k2 v2 (mapInsert k1 v1 m) = mapInsert k1 v1 (mapInsert k2 v2 m) := by
  intro m
  rcases bytesLt_total k1 k2 h with hlt | hlt
  · exact mapInsert_comm_aux k1 k2 v1 v2 hlt m
  · exact (mapInsert_comm_aux k2 k1 v2 v1 hlt m).symm

theorem mapInsert_same {α : Type} (k : List Nat) (v1 v2 : α) :
    ∀ m, mapInsert k v2 (mapInsert k v1 m) = mapInsert k v2 m := by
  intro m
  induction m with
  | nil => simp [mapInsert, bytesLt_irrefl]
  | cons y m ih =>
    obtain ⟨ky, vy⟩ := y
    by_cases c : bytesLt k ky = true
    · simp [mapInsert, c, bytesLt_irrefl]
    · by_cases e : k = ky
      · subst e
        simp [mapInsert, c, bytesLt_irrefl]
      · simp [mapInsert, c, e, ih]

theorem containsKey_mapInsert_self {α : Type} (k : List Nat) (v : α) :
    ∀ m, containsKey (mapInsert k v m) k = true := by
  intro m
  induction m with
  | nil => simp [mapInsert, containsKey]
  | cons y m ih =>
    obtain ⟨ky, vy⟩ := y
    by_cases c : bytesLt k ky = true
    · simp [mapInsert, containsKey, c]
    · by_cases e : k = ky
      · subst e
        simp [mapInsert, containsKey, c]
      · simp [mapInsert, containsKey, c, e, ih]

theorem containsKey_mapInsert_ne {α : Type} (k t : List Nat) (v : α) (h : k ≠ t) :
    ∀ m, containsKey (mapInsert k v m) t = containsKey m t := by
  intro m
  induction m with
  | nil => simp [mapInsert, containsKey, h]
  | cons y m ih =>
    obtain ⟨ky, vy⟩ := y
    by_cases c : bytesLt k ky = true
    · simp [mapInsert, containsKey, c, h]
    · by_cases e : k = ky
      · subst e
        simp [mapInsert, containsKey, c, h]
      · simp [mapInsert, containsKey, c, e, ih]

theorem FdtNode.empty_eq (nm : List Nat) :
    FdtNode.empty nm =
      if is_valid_node_name nm = true then Except.ok (FdtNode.mk nm [] [])
      else Except.error (FdtError.InvalidName nm) := by
  unfold FdtNode.empty FdtNode.new
  by_cases hv : is_valid_node_name nm = true
  · simp [hv, firstInvalidPropName]
  · simp [hv]

theorem set_prop_effect (k : List Nat) (v : FdtPropval) :
    (∀ n : FdtNode, (n.set_prop k v).1 = n) ∨
    (∃ bs, ∀ n : FdtNode,
      (n.set_prop k v).1 = FdtNode.mk n.name (mapInsert k bs n.props) n.subnodes) := by
  by_cases hv : is_valid_prop_name k = true
  · rcases hok : v.to_propval with e | bs
    · left
      intro n
      simp [FdtNode.set_prop, hv, hok]
    · by_cases hlen : bs.length < 2 ^ 32
      · right
        refine ⟨bs, fun n => ?_⟩
        simp [FdtNode.set_prop, hv, hok]
        rw [if_pos (show bs.length < 4294967296 by omega)]
      · left
        intro n
        simp [FdtNode.set_prop, hv, hok]
        rw [if_neg (show ¬ bs.length < 4294967296 by omega)]
  · left
    intro n
    simp [FdtNode.set_prop, hv]

theorem subnode_mut_eq (n : FdtNode) (a : List Nat) :
    n.subnode_mut a =
      if containsKey n.subnodes a = true then (n, none)
      else if is_valid_node_name a = true then
        (FdtNode.mk n.name n.props (mapInsert a (FdtNode.mk a [] []) n.subnodes), none)
      else (n, some (FdtError.InvalidName a)) := by
  unfold FdtNode.subnode_mut
  rw [FdtNode.empty_eq]
  by_cases hc : containsKey n.subnodes a = true
  · simp [hc]
  · by_cases hv : is_valid_node_name a = true
    · simp [hc, hv]
    · simp [hc, hv]

theorem FdtNode.myInduct (P : FdtNode → Prop)
    (step : ∀ (nm : List Nat) (ps : List (List Nat × List Nat))
        (sns : List (List Nat × FdtNode)),
        (∀ kc ∈ sns, P kc.2) → P (FdtNode.mk nm ps sns)) :
    ∀ n, P n
  | FdtNode.mk nm ps sns =>
    step nm ps sns fun kc hkc =>
      FdtNode.myInduct P step kc.2
termination_by n => sizeOf n
decreasing_by
  have h1 := List.sizeOf_lt_of_mem hkc
  obtain ⟨k, c⟩ := kc
  simp at h1 ⊢
  omega

theorem write_blob_eq (nm : List Nat) (ps : List (List Nat × List Nat))
    (sns : List (List Nat × FdtNode)) (st : FdtStrings) :
    FdtNode.write_blob (FdtNode.mk nm ps sns) st =
      (u32be FDT_BEGIN_NODE ++ nm ++ [0] ++
        List.replicate (align_pad_len (nm.length + 1) SIZE_U32) 0 ++
        (writeProps ps st).1 ++ (writeChildren sns (writeProps ps st).2).1 ++
        u32be FDT_END_NODE,
       (writeChildren sns (writeProps ps st).2).2) := by
  rw [FdtNode.write_blob]

theorem StrSub.rfl (st : FdtStrings) : StrSub st st := fun _ _ h => h

theorem StrSub.trans {a b c : FdtStrings} (h1 : StrSub a b) (h2 : StrSub b c) :
    StrSub a c := fun s off h => h2 s off (h1 s off h)

theorem intern_sub (st : FdtStrings) (s : List Nat) :
    StrSub st (st.intern_string s).2 := by
  rcases hcase : lookupKey st.string_offsets s with _ | off
  · rw [intern_new st s hcase]
    intro t o h
    show lookupKey ((s, st.strings.length % 2 ^ 32) :: st.string_offsets) t = some o
    unfold lookupKey
    by_cases hst : s = t
    · subst hst
      rw [hcase] at h
      cases h
    · rw [if_neg hst]
      exact h
  · rw [intern_found st s off hcase]
    exact StrSub.rfl st

theorem intern_self_lookup (st : FdtStrings) (s : List Nat) :
    lookupKey ((st.intern_string s).2).string_offsets s = some (st.intern_string s).1 := by
  rcases hcase : lookupKey st.string_offsets s with _ | off
  · rw [intern_new st s hcase]
    simp [lookupKey]
  · rw [intern_found st s off hcase]
    exact hcase

theorem intern_replay (st st2 : FdtStrings) (s : List Nat)
    (h : StrSub (st.intern_string s).2 st2) :
    st2.intern_string s = ((st.intern_string s).1, st2) :=
  intern_found st2 s _ (h s (st.intern_string s).1 (intern_self_lookup st s))

theorem writeProps_sub (ps : List (List Nat × List Nat)) :
    ∀ st, StrSub st (writeProps ps st).2 := by
  induction ps with
  | nil => exact fun st => StrSub.rfl st
  | cons p rest ih =>
    intro st
    obtain ⟨pname, pblob⟩ := p
    exact StrSub.trans (intern_sub st pname) (ih (st.intern_string pname).2)

theorem writeProps_replay (ps : List (List Nat × List Nat)) :
    ∀ st st2, StrSub (writeProps ps st).2 st2 →
      writeProps ps st2 = ((writeProps ps st).1, st2) := by
  induction ps with
  | nil =>
    intro st st2 h
    rfl
  | cons p rest ih =>
    intro st st2 h
    obtain ⟨pname, pblob⟩ := p
    have hsub2 : StrSub (st.intern_string pname).2 st2 :=
      StrSub.trans (writeProps_sub rest (st.intern_string pname).2) h
    have hint := intern_replay st st2 pname hsub2
    have hrest := ih (st.intern_string pname).2 st2 h
    simp only [writeProps]
    rw [hint, hrest]

theorem writeChildren_sub (l : List (List Nat × FdtNode))
    (hel : ∀ kc ∈ l, ∀ st, StrSub st (FdtNode.write_blob kc.2 st).2) :
    ∀ st, StrSub st (writeChildren l st).2 := by
  induction l with
  | nil => exact fun st => StrSub.rfl st
  | cons kc rest ih =>
    intro st
    obtain ⟨k, c⟩ := kc
    have h1 := hel (k, c) (List.mem_cons_self _ _) st
    have h2 := ih (fun kc2 hm => hel kc2 (List.mem_cons_of_mem _ hm))
      (FdtNode.write_blob c st).2
    exact StrSub.trans h1 h2

theorem write_blob_sub (n : FdtNode) : ∀ st, StrSub st (FdtNode.write_blob n st).2 := by
  refine FdtNode.myInduct (fun m => ∀ st, StrSub st (FdtNode.write_blob m st).2) ?_ n
  intro nm ps sns ih st
  rw [write_blob_eq]
  exact StrSub.trans (writeProps_sub ps st) (writeChildren_sub sns ih (writeProps ps st).2)

theorem writeChildren_replay (l : List (List Nat × FdtNode))
    (hrp : ∀ kc ∈ l, ∀ st st2, StrSub (FdtNode.write_blob kc.2 st).2 st2 →
        FdtNode.write_blob kc.2 st2 = ((FdtNode.write_blob kc.2 st).1, st2)) :
    ∀ st st2, StrSub (writeChildren l st).2 st2 →
      writeChildren l st2 = ((writeChildren l st).1, st2) := by
  induction l with
  | nil =>
    intro st st2 h
    rfl
  | cons kc rest ih =>
    intro st st2 h
    obtain ⟨k, c⟩ := kc
    have hsta : StrSub (FdtNode.write_blob c st).2
        (writeChildren rest (FdtNode.write_blob c st).2).2 :=
      writeChildren_sub rest (fun kc2 _ st3 => write_blob_sub kc2.2 st3) _
    have hc := hrp (k, c) (List.mem_cons_self _ _) st st2 (StrSub.trans hsta h)
    have hrest := ih (fun kc2 hm => hrp kc2 (List.mem_cons_of_mem _ hm))
      (FdtNode.write_blob c st).2 st2 h
    simp only [writeChildren]
    rw [hc, hrest]

theorem write_blob_replay (n : FdtNode) : ∀ st st2,
    StrSub (FdtNode.write_blob n st).2 st2 →
    FdtNode.write_blob n st2 = ((FdtNode.write_blob n st).1, st2) := by
  refine FdtNode.myInduct (fun m => ∀ st st2, StrSub (FdtNode.write_blob m st).2 st2 →
    FdtNode.write_blob m st2 = ((FdtNode.write_blob m st).1, st2)) ?_ n
  intro nm ps sns ih st st2 h
  rw [write_blob_eq] at h
  have hsub1 : StrSub (writeProps ps st).2 (writeChildren sns (writeProps ps st).2).2 :=
    writeChildren_sub sns (fun kc _ st3 => write_blob_sub kc.2 st3) _
  have hprops := writeProps_replay ps st st2 (StrSub.trans hsub1 h)
  have hch := writeChildren_replay sns ih (writeProps ps st).2 st2 h
  rw [write_blob_eq, write_blob_eq, hprops, hch]

theorem writeStruct_idem (root : FdtNode) (st : FdtStrings) :
    writeStruct root (writeStruct root st).2 = writeStruct root st := by
  unfold writeStruct
  rw [write_blob_replay root st (FdtNode.write_blob root st).2 (StrSub.rfl _)]

theorem finish_snd (fdt : Fdt) :
    (Fdt.finish fdt).2 = { fdt with strings := fdt.structRes.2 } := by
  unfold Fdt.finish
  split <;> rfl

/-- C4: a second call to finish on the same handle, whose node tree and
reserved-memory list are unchanged but whose internal string table was
mutated by the first call, produces byte-identical output: the mutated
table replays every interning to the same offsets and appends nothing. -/
theorem finish_twice_identical (fdt : Fdt) (bytes : List Nat)
    (h : (Fdt.finish fdt).1 = Except.ok bytes) :
    ((Fdt.finish fdt).2.finish).1 = Except.ok bytes := by
  rw [finish_snd]
  have hsr : ({ fdt with strings := fdt.structRes.2 } : Fdt).structRes = fdt.structRes := by
    unfold Fdt.structRes
    exact writeStruct_idem fdt.root fdt.strings
  have hss : ({ fdt with strings := fdt.structRes.2 } : Fdt).structStart = fdt.structStart := rfl
  have hstr : ({ fdt with strings := fdt.structRes.2 } : Fdt).stringsStart = fdt.stringsStart := by
    unfold Fdt.stringsStart
    rw [hsr, hss]
  have hb : ({ fdt with strings := fdt.structRes.2 } : Fdt).body = fdt.body := by
    unfold Fdt.body
    rw [hstr, hsr]
  have hcp : ({ fdt with strings := fdt.structRes.2 } : Fdt).boot_cpuid_phys =
      fdt.boot_cpuid_phys := rfl
  unfold Fdt.finish at h ⊢
  simp only [hb, hsr, hstr, hss, hcp]
  exact h

theorem finish_twice_identical_witness :
    (((Fdt.new []).finish).2.finish).1 = Except.ok c2bytes :=
  finish_twice_identical (Fdt.new []) c2bytes rfl

theorem sortPairs_cons {α : Type} (x : List Nat × α) (l : List (List Nat × α)) :
    sortPairs (x :: l) = sortedInsert x (sortPairs l) := rfl

theorem sortPairs_eq_self {α : Type} :
    ∀ l : List (List Nat × α), keysSorted l → sortPairs l = l := by
  intro l h
  induction l with
  | nil => rfl
  | cons x t ih =>
    rcases List.pairwise_cons.1 h with ⟨hx, ht⟩
    rw [sortPairs_cons, ih ht]
    cases t with
    | nil => rfl
    | cons y t2 =>
      unfold sortedInsert
      rw [if_pos (hx y (List.mem_cons_self _ _))]

theorem specWriteProps_eq (ps : List (List Nat × List Nat)) :
    ∀ st, specWriteProps ps st = writeProps ps st := by
  induction ps with
  | nil =>
    intro st
    rfl
  | cons p rest ih =>
    intro st
    obtain ⟨pname, pblob⟩ := p
    simp only [specWriteProps, writeProps]
    rw [ih]
    simp [FDT_PROP, SIZE_U32]

theorem children_spec_eq (sns : List (List Nat × FdtNode))
    (h : ∀ kc ∈ sns, ∀ st, FdtNode.write_blob kc.2 st = specWriteNode kc.2 st) :
    ∀ st, writeChildren sns st = specWriteChildren sns st := by
  induction sns with
  | nil =>
    intro st
    simp [writeChildren, specWriteChildren]
  | cons kc rest ih =>
    intro st
    obtain ⟨k, c⟩ := kc
    simp only [writeChildren, specWriteChildren]
    rw [h (k, c) (List.mem_cons_self _ _) st,
      ih fun kc2 hm => h kc2 (List.mem_cons_of_mem _ hm)]

/-- C1: for every well-formed node (sorted maps, the BTreeMap invariant),
write_blob emits exactly what the specification describes: a big-endian
begin-node marker, the name bytes with one zero terminator padded to a
4-byte boundary, then for each property in lexicographic key order a
property marker, the 32-bit big-endian value length, the 32-bit big-endian
interned name offset, the raw value and zero padding to a 4-byte boundary,
then each child recursively in lexicographic key order, then an end-node
marker. -/
theorem node_write_blob_matches_spec (n : FdtNode) (h : NodeWF n) :
    ∀ st, FdtNode.write_blob n st = specWriteNode n st := by
  induction h with
  | mk nm ps sns hp hs hc ih =>
    intro st
    rw [write_blob_eq, specWriteNode]
    rw [sortPairs_eq_self ps hp, sortPairs_eq_self sns hs, specWriteProps_eq ps st]
    rw [← children_spec_eq sns ih]
    simp [FDT_BEGIN_NODE, FDT_END_NODE, SIZE_U32]

theorem node_write_blob_matches_spec_witness :
    FdtNode.write_blob demoNode FdtStrings.empty = specWriteNode demoNode FdtStrings.empty := by
  have hchild : NodeWF (FdtNode.mk [110, 101, 115, 116, 101, 100]
      [([100, 101, 102], [0x12, 0x12, 0x12, 0x12])] []) := by
    refine NodeWF.mk _ _ _ ?_ ?_ ?_
    · simp [keysSorted]
    · simp [keysSorted]
    · intro kc hm
      simp at hm
  have hwf : NodeWF demoNode := by
    show NodeWF (FdtNode.mk [] [([97, 98, 99], [0x13, 0x57, 0x90, 0x24])]
      [([110, 101, 115, 116, 101, 100], FdtNode.mk [110, 101, 115, 116, 101, 100]
        [([100, 101, 102], [0x12, 0x12, 0x12, 0x12])] [])])
    refine NodeWF.mk _ _ _ ?_ ?_ ?_
    · simp [keysSorted]
    · simp [keysSorted]
    · intro kc hm
      simp at hm
      subst hm
      exact hchild
  exact node_write_blob_matches_spec demoNode hwf FdtStrings.empty

theorem readU32BE_skip (x : Nat) (l : List Nat) (n : Nat) :
    readU32BE (x :: l) (n + 1) = readU32BE l n := rfl

theorem readU32BE_quad (b0 b1 b2 b3 : Nat) (l : List Nat) :
    readU32BE (b0 :: b1 :: b2 :: b3 :: l) 0 =
      b0 * 2 ^ 24 + b1 * 2 ^ 16 + b2 * 2 ^ 8 + b3 := rfl

theorem readU32BE_header (h : FdtHeader) (rest : List Nat) :
    readU32BE (h.write_blob ++ rest) 4 = h.total_size % 2 ^ 32 ∧
    readU32BE (h.write_blob ++ rest) 8 = h.off_dt_struct % 2 ^ 32 ∧
    readU32BE (h.write_blob ++ rest) 12 = h.off_dt_strings % 2 ^ 32 ∧
    readU32BE (h.write_blob ++ rest) 16 = h.off_mem_rsvmap % 2 ^ 32 ∧
    readU32BE (h.write_blob ++ rest) 32 = h.size_dt_strings % 2 ^ 32 ∧
    readU32BE (h.write_blob ++ rest) 36 = h.size_dt_struct % 2 ^ 32 := by
  obtain ⟨f0, f1, f2, f3, f4, f5, f6, f7, f8, f9⟩ := h
  simp only [FdtHeader.write_blob, u32be, List.cons_append, List.nil_append]
  refine ⟨?_, ?_, ?_, ?_, ?_, ?_⟩ <;>
    simp only [readU32BE_skip, readU32BE_quad] <;> omega

theorem header_write_blob_length (h : FdtHeader) : h.write_blob.length = 40 := by
  simp [FdtHeader.write_blob]

/-- C3: whenever finish succeeds, the header embedded in the output
satisfies the size accounting and alignment laws: total_size is the output
length; size_dt_strings plus off_dt_strings is total_size; off_dt_strings
minus off_dt_struct is size_dt_struct; off_mem_rsvmap and off_dt_struct
are multiples of 8; off_dt_strings is a multiple of 4. -/
theorem finish_header_accounting (fdt : Fdt) (bytes : List Nat)
    (h : (Fdt.finish fdt).1 = Except.ok bytes) :
    readU32BE bytes 4 = bytes.length ∧
    readU32BE bytes 32 + readU32BE bytes 12 = readU32BE bytes 4 ∧
    readU32BE bytes 12 - readU32BE bytes 8 = readU32BE bytes 36 ∧
    readU32BE bytes 16 % 8 = 0 ∧
    readU32BE bytes 8 % 8 = 0 ∧
    readU32BE bytes 12 % 4 = 0 := by
  have hpre : preRsv.length = 40 := rfl
  have hS3 : fdt.structStart.length =
      fdt.rsvEnd.length + align_pad_len fdt.rsvEnd.length 8 := by
    unfold Fdt.structStart
    simp [SIZE_U64]
  have hS3mod : fdt.structStart.length % 8 = 0 := by
    rw [hS3]
    exact align_pad_total8 _
  have hS5 : fdt.stringsStart.length =
      (fdt.structStart ++ fdt.structRes.1).length +
        align_pad_len (fdt.structStart ++ fdt.structRes.1).length 4 := by
    unfold Fdt.stringsStart
    simp [SIZE_U32]
    omega
  have hS5mod : fdt.stringsStart.length % 4 = 0 := by
    rw [hS5]
    exact align_pad_total4 _
  have hS3le : fdt.structStart.length ≤ fdt.stringsStart.length := by
    rw [hS5]
    simp [List.length_append]
    omega
  have hS5le : fdt.stringsStart.length ≤ fdt.body.length := by
    unfold Fdt.body
    simp [List.length_append]
  have hrsvlen : fdt.rsvEnd.length = 40 + (writeReservedMemory fdt.reserved_memory).length := by
    unfold Fdt.rsvEnd
    simp [List.length_append, hpre]
  have h40le : 40 ≤ fdt.structStart.length := by
    rw [hS3]
    omega
  simp only [Fdt.finish] at h
  split at h
  case isFalse hc => simp at h
  case isTrue hc =>
    have hbeq := Except.ok.inj h
    subst hbeq
    obtain ⟨r4, r8, r12, r16, r32, r36⟩ :=
      readU32BE_header
        (FdtHeader.new fdt.body.length fdt.structStart.length fdt.stringsStart.length
          preRsv.length fdt.boot_cpuid_phys
          (fdt.body.length - fdt.stringsStart.length)
          (fdt.stringsStart.length - fdt.structStart.length))
        (fdt.body.drop FdtHeader.SIZE)
    rw [r4, r8, r12, r16, r32, r36]
    simp only [FdtHeader.new, List.length_append, header_write_blob_length,
      List.length_drop, hpre, FdtHeader.SIZE, SIZE_U32]
    refine ⟨?_, ?_, ?_, ?_, ?_, ?_⟩ <;> omega

theorem finish_header_accounting_witness :
    readU32BE c2bytes 4 = c2bytes.length ∧
    readU32BE c2bytes 32 + readU32BE c2bytes 12 = readU32BE c2bytes 4 ∧
    readU32BE c2bytes 12 - readU32BE c2bytes 8 = readU32BE c2bytes 36 ∧
    readU32BE c2bytes 16 % 8 = 0 ∧
    readU32BE c2bytes 8 % 8 = 0 ∧
    readU32BE c2bytes 12 % 4 = 0 :=
  finish_header_accounting (Fdt.new []) c2bytes rfl

theorem mem_mapInsert {α : Type} (x : List Nat × α) (k : List Nat) (v : α) :
    ∀ m, x ∈ mapInsert k v m → x = (k, v) ∨ x ∈ m := by
  intro m
  induction m with
  | nil =>
    intro h
    simp [mapInsert] at h
    exact Or.inl h
  | cons y m ih =>
    intro h
    obtain ⟨ky, vy⟩ := y
    by_cases c : bytesLt k ky = true
    · simp only [mapInsert] at h
      rw [if_pos c] at h
      rcases List.mem_cons.1 h with h1 | h1
      · exact Or.inl h1
      · exact Or.inr h1
    · by_cases e : k = ky
      · simp only [mapInsert] at h
        rw [if_neg c, if_pos e] at h
        rcases List.mem_cons.1 h with h1 | h1
        · exact Or.inl h1
        · exact Or.inr (List.mem_cons_of_mem _ h1)
      · simp only [mapInsert] at h
        rw [if_neg c, if_neg e] at h
        rcases List.mem_cons.1 h with h1 | h1
        · exact Or.inr (by simp [h1])
        · rcases ih h1 with h2 | h2
          · exact Or.inl h2
          · exact Or.inr (List.mem_cons_of_mem _ h2)

theorem keysSorted_mapInsert {α : Type} (k : List Nat) (v : α) :
    ∀ m : List (List Nat × α), keysSorted m → keysSorted (mapInsert k v m) := by
  intro m
  induction m with
  | nil =>
    intro _
    simp [mapInsert, keysSorted]
  | cons y m ih =>
    intro hs
    obtain ⟨ky, vy⟩ := y
    rcases List.pairwise_cons.1 hs with ⟨hy, hm⟩
    by_cases c : bytesLt k ky = true
    · simp only [mapInsert]
      rw [if_pos c]
      refine List.Pairwise.cons ?_ hs
      intro x hx
      rcases List.mem_cons.1 hx with hEq | hxm
      · subst hEq
        exact c
      · exact bytesLt_trans _ _ _ c (hy x hxm)
    · by_cases e : k = ky
      · simp only [mapInsert]
        rw [if_neg c, if_pos e]
        subst e
        exact List.Pairwise.cons (fun x hx => hy x hx) hm
      · simp only [mapInsert]
        rw [if_neg c, if_neg e]
        have hky : bytesLt ky k = true := by
          rcases bytesLt_total k ky e with h1 | h1
          · exact absurd h1 c
          · exact h1
        refine List.Pairwise.cons ?_ (ih hm)
        intro x hx
        rcases mem_mapInsert x k v m hx with hEq | hxm
        · subst hEq
          exact hky
        · exact hy x hxm

theorem lookupKey_some_mem {α : Type} :
    ∀ (m : List (List Nat × α)) (k : List Nat) (v : α),
      lookupKey m k = some v → (k, v) ∈ m := by
  intro m
  induction m with
  | nil =>
    intro k v h
    simp [lookupKey] at h
  | cons y m ih =>
    intro k v h
    obtain ⟨ky, vy⟩ := y
    by_cases e : ky = k
    · subst e
      simp [lookupKey] at h
      subst h
      exact List.mem_cons_self _ _
    · simp [lookupKey, e] at h
      exact List.mem_cons_of_mem _ (ih k v h)

theorem sorted_head_lookup_none {α : Type} (k : List Nat) (v : α)
    (t : List (List Nat × α)) (h : keysSorted ((k, v) :: t)) :
    lookupKey t k = none := by
  rcases hl : lookupKey t k with _ | w
  · rfl
  · exfalso
    have hm := lookupKey_some_mem t k w hl
    have hlt := (List.pairwise_cons.1 h).1 (k, w) hm
    rw [bytesLt_irrefl] at hlt
    cases hlt

theorem map_ext {α : Type} :
    ∀ m1 m2 : List (List Nat × α), keysSorted m1 → keysSorted m2 →
      (∀ k, lookupKey m1 k = lookupKey m2 k) → m1 = m2 := by
  intro m1
  induction m1 with
  | nil =>
    intro m2 _ _ hlk
    cases m2 with
    | nil => rfl
    | cons y t2 =>
      obtain ⟨k2, v2⟩ := y
      have hx := hlk k2
      simp [lookupKey] at hx
  | cons x t1 ih =>
    intro m2 hs1 hs2 hlk
    obtain ⟨k1, v1⟩ := x
    cases m2 with
    | nil =>
      have hx := hlk k1
      simp [lookupKey] at hx
    | cons y t2 =>
      obtain ⟨k2, v2⟩ := y
      have hk12 : k1 = k2 := by
        by_contra hne
        have h1 : lookupKey ((k2, v2) :: t2) k1 = some v1 := by
          rw [← hlk k1]
          simp [lookupKey]
        have h2 : lookupKey ((k1, v1) :: t1) k2 = some v2 := by
          rw [hlk k2]
          simp [lookupKey]
        have hm1 := lookupKey_some_mem _ _ _ h1
        have hm2 := lookupKey_some_mem _ _ _ h2
        rcases List.mem_cons.1 hm1 with hEq | hmem1
        · exact hne (congrArg Prod.fst hEq)
        rcases List.mem_cons.1 hm2 with hEq2 | hmem2
        · exact hne (congrArg Prod.fst hEq2).symm
        have l1 := (List.pairwise_cons.1 hs2).1 (k1, v1) hmem1
        have l2 := (List.pairwise_cons.1 hs1).1 (k2, v2) hmem2
        have l3 := bytesLt_asymm _ _ l2
        rw [l3] at l1
        cases l1
      subst hk12
      have hv : v1 = v2 := by
        have hx := hlk k1
        simp [lookupKey] at hx
        exact hx
      subst hv
      have htail : ∀ k, lookupKey t1 k = lookupKey t2 k := by
        intro k
        by_cases e : k = k1
        · subst e
          rw [sorted_head_lookup_none k v1 t1 hs1, sorted_head_lookup_none k v1 t2 hs2]
        · have hx := hlk k
          simp [lookupKey, Ne.symm e] at hx
          exact hx
      rw [ih t2 (List.pairwise_cons.1 hs1).2 (List.pairwise_cons.1 hs2).2 htail]

theorem set_prop_wf (name : List Nat) (v : FdtPropval) :
    ∀ n : FdtNode, NodeWF n → NodeWF (n.set_prop name v).1 := by
  intro n h
  rcases set_prop_effect name v with h1 | ⟨bs, h1⟩
  · rw [h1 n]
    exact h
  · rw [h1 n]
    obtain ⟨nm, ps, sns⟩ := n
    simp only [FdtNode.name_mk, FdtNode.props_mk, FdtNode.subnodes_mk]
    cases h with
    | mk _ _ _ hp hs hc =>
      exact NodeWF.mk _ _ _ (keysSorted_mapInsert name bs ps hp) hs hc

theorem subnode_mut_wf (name : List Nat) :
    ∀ n : FdtNode, NodeWF n → NodeWF (n.subnode_mut name).1 := by
  intro n h
  rw [subnode_mut_eq]
  by_cases hc : containsKey n.subnodes name = true
  · rw [if_pos hc]
    exact h
  · by_cases hv : is_valid_node_name name = true
    · rw [if_neg hc, if_pos hv]
      obtain ⟨nm, ps, sns⟩ := n
      simp only [FdtNode.name_mk, FdtNode.props_mk, FdtNode.subnodes_mk]
      cases h with
      | mk _ _ _ hp hs hcw =>
        refine NodeWF.mk _ _ _ hp (keysSorted_mapInsert name _ sns hs) ?_
        intro kc hkc
        rcases mem_mapInsert kc name (FdtNode.mk name [] []) sns hkc with hEq | hm
        · subst hEq
          refine NodeWF.mk _ _ _ ?_ ?_ ?_
          · simp [keysSorted]
          · simp [keysSorted]
          · intro kc2 h2
            simp at h2
        · exact hcw kc hm
    · rw [if_neg hc, if_neg hv]
      exact h

theorem applyAt_wf (f : FdtNode → FdtNode) (hf : ∀ m, NodeWF m → NodeWF (f m)) :
    ∀ (path : List (List Nat)) (n : FdtNode), NodeWF n → NodeWF (applyAt f path n) := by
  intro path
  induction path with
  | nil =>
    intro n h
    exact hf n h
  | cons p rest ih =>
    intro n h
    obtain ⟨nm, ps, sns⟩ := n
    rcases hl : lookupKey sns p with _ | c
    · simp only [applyAt, hl]
      exact h
    · simp only [applyAt, hl]
      cases h with
      | mk _ _ _ hp hs hcw =>
        refine NodeWF.mk _ _ _ hp (keysSorted_mapInsert p _ sns hs) ?_
        intro kc hkc
        rcases mem_mapInsert kc p (applyAt f rest c) sns hkc with hEq | hm
        · subst hEq
          exact ih c (hcw (p, c) (lookupKey_some_mem sns p c hl))
        · exact hcw kc hm

theorem applyOp_wf (n : FdtNode) (op : BuildOp) (h : NodeWF n) : NodeWF (applyOp n op) := by
  cases op with
  | setProp path name v =>
    exact applyAt_wf _ (fun m hm => set_prop_wf name v m hm) path n h
  | subnode path name =>
    exact applyAt_wf _ (fun m hm => subnode_mut_wf name m hm) path n h

theorem applyOps_wf (ops : List BuildOp) : ∀ n, NodeWF n → NodeWF (applyOps n ops) := by
  induction ops with
  | nil =>
    intro n h
    simpa [applyOps] using h
  | cons op rest ih =>
    intro n h
    have hx := ih (applyOp n op) (applyOp_wf n op h)
    simpa [applyOps] using hx

theorem tree_ext : ∀ n1 n2 : FdtNode, TreeMapsEq n1 n2 → NodeWF n1 → NodeWF n2 → n1 = n2 := by
  intro n1 n2 h
  induction h with
  | mk m1 m2 hn hp hs hc ih =>
    intro hw1 hw2
    obtain ⟨nm1, ps1, sns1⟩ := m1
    obtain ⟨nm2, ps2, sns2⟩ := m2
    simp only [FdtNode.name_mk, FdtNode.props_mk, FdtNode.subnodes_mk] at hn hp hs ih
    cases hw1 with
    | mk _ _ _ hp1 hsw1 hc1 =>
      cases hw2 with
      | mk _ _ _ hp2 hsw2 hc2 =>
        have hps : ps1 = ps2 := map_ext ps1 ps2 hp1 hp2 hp
        have hsns : sns1 = sns2 := by
          apply map_ext sns1 sns2 hsw1 hsw2
          intro k
          rcases h1 : lookupKey sns1 k with _ | c1
          · rcases h2 : lookupKey sns2 k with _ | c2
            · rfl
            · have hx := hs k
              rw [h1, h2] at hx
              simp at hx
          · rcases h2 : lookupKey sns2 k with _ | c2
            · have hx := hs k
              rw [h1, h2] at hx
              simp at hx
            · have hcc := ih k c1 c2 h1 h2
                (hc1 (k, c1) (lookupKey_some_mem sns1 k c1 h1))
                (hc2 (k, c2) (lookupKey_some_mem sns2 k c2 h2))
              rw [hcc]
        rw [hn, hps, hsns]

theorem TreeMapsEq.refl : ∀ n : FdtNode, TreeMapsEq n n := by
  refine FdtNode.myInduct (fun n => TreeMapsEq n n) ?_
  intro nm ps sns ih
  refine TreeMapsEq.mk _ _ rfl (fun _ => rfl) (fun _ => Iff.rfl) ?_
  intro k c1 c2 h1 h2
  rw [h1] at h2
  injection h2 with h3
  subst h3
  exact ih (k, c1) (lookupKey_some_mem _ _ _ (by simpa using h1))

/-- C5: any two sequences of building calls (set_prop or subnode_mut,
each addressed to a node by its path of child names, on a well-formed
tree) that build the same property map and child map on each node make
finish produce the same byte sequence; moreover the single-call building
steps are order-independent: successful set_prop calls on distinct keys
commute, overwriting a key leaves exactly the last value, subnode_mut
calls on distinct names commute, set_prop commutes with subnode_mut, and
repeated subnode_mut with the same name returns the same logical child
and leaves the tree unchanged after the first call. -/
theorem tree_build_order_independent :
    (∀ (fdt : Fdt) (ops1 ops2 : List BuildOp),
        NodeWF fdt.root →
        TreeMapsEq (applyOps fdt.root ops1) (applyOps fdt.root ops2) →
        (Fdt.finish { fdt with root := applyOps fdt.root ops1 }).1 =
          (Fdt.finish { fdt with root := applyOps fdt.root ops2 }).1) ∧
    (∀ (n : FdtNode) (k1 k2 : List Nat) (v1 v2 : FdtPropval), k1 ≠ k2 →
        ((n.set_prop k1 v1).1.set_prop k2 v2).1 = ((n.set_prop k2 v2).1.set_prop k1 v1).1) ∧
    (∀ (n : FdtNode) (k : List Nat) (v1 v2 : FdtPropval),
        (n.set_prop k v2).2 = none →
        ((n.set_prop k v1).1.set_prop k v2).1 = (n.set_prop k v2).1) ∧
    (∀ (n : FdtNode) (a b : List Nat), a ≠ b →
        ((n.subnode_mut a).1.subnode_mut b).1 = ((n.subnode_mut b).1.subnode_mut a).1) ∧
    (∀ (n : FdtNode) (k : List Nat) (v : FdtPropval) (a : List Nat),
        ((n.set_prop k v).1.subnode_mut a).1 = ((n.subnode_mut a).1.set_prop k v).1) ∧
    (∀ (n : FdtNode) (nm : List Nat),
        (n.subnode_mut nm).1.subnode_mut nm = n.subnode_mut nm ∧
        lookupKey ((n.subnode_mut nm).1.subnode_mut nm).1.subnodes nm =
          lookupKey (n.subnode_mut nm).1.subnodes nm) := by
  refine ⟨?_, ?_, ?_, ?_, ?_, ?_⟩
  · intro fdt ops1 ops2 hwf hmaps
    have h1 := applyOps_wf ops1 fdt.root hwf
    have h2 := applyOps_wf ops2 fdt.root hwf
    rw [tree_ext _ _ hmaps h1 h2]
  · intro n k1 k2 v1 v2 hne
    rcases set_prop_effect k1 v1 with h1 | ⟨b1, h1⟩ <;>
      rcases set_prop_effect k2 v2 with h2 | ⟨b2, h2⟩
    · simp [h1, h2]
    · simp [h1, h2]
    · simp [h1, h2]
    · simp only [h1, h2, FdtNode.name_mk, FdtNode.props_mk, FdtNode.subnodes_mk]
      rw [mapInsert_comm k1 k2 b1 b2 hne]
  · intro n k v1 v2 hsucc
    have hv : is_valid_prop_name k = true := by
      by_contra hv
      simp [FdtNode.set_prop, hv] at hsucc
    rcases hok : v2.to_propval with e | b2
    · exfalso
      simp [FdtNode.set_prop, hv, hok] at hsucc
    · have hlen : b2.length < 2 ^ 32 := by
        by_contra hlen
        rw [show (2 : Nat) ^ 32 = 4294967296 by norm_num] at hlen
        simp [FdtNode.set_prop, hv, hok] at hsucc
        rw [if_neg hlen] at hsucc
        simp at hsucc
      have h2 : ∀ m : FdtNode,
          (m.set_prop k v2).1 = FdtNode.mk m.name (mapInsert k b2 m.props) m.subnodes := by
        intro m
        simp [FdtNode.set_prop, hv, hok]
        rw [if_pos (show b2.length < 4294967296 by omega)]
      rcases set_prop_effect k v1 with h1 | ⟨b1, h1⟩
      · rw [h1]
      · simp only [h1, h2, FdtNode.name_mk, FdtNode.props_mk, FdtNode.subnodes_mk]
        rw [mapInsert_same]
  · intro n a b hne
    have hab : ∀ (v : FdtNode) (m : List (List Nat × FdtNode)),
        containsKey (mapInsert a v m) b = containsKey m b :=
      fun v m => containsKey_mapInsert_ne a b v hne m
    have hba : ∀ (v : FdtNode) (m : List (List Nat × FdtNode)),
        containsKey (mapInsert b v m) a = containsKey m a :=
      fun v m => containsKey_mapInsert_ne b a v (Ne.symm hne) m
    by_cases va : is_valid_node_name a = true <;>
      by_cases vb : is_valid_node_name b = true <;>
      by_cases ca : containsKey n.subnodes a = true <;>
      by_cases cb : containsKey n.subnodes b = true <;>
      simp [subnode_mut_eq, ca, cb, va, vb, hab, hba, mapInsert_comm a b _ _ hne]
  · intro n k v a
    rcases set_prop_effect k v with h1 | ⟨bs, h1⟩
    · simp [h1]
    · by_cases va : is_valid_node_name a = true <;>
        by_cases ca : containsKey n.subnodes a = true <;>
        simp [subnode_mut_eq, h1, ca, va]
  · intro n nm
    by_cases hc : containsKey n.subnodes nm = true
    · constructor <;> simp [subnode_mut_eq, hc]
    · by_cases hv : is_valid_node_name nm = true
      · constructor <;> simp [subnode_mut_eq, hc, hv, containsKey_mapInsert_self]
      · constructor <;> simp [subnode_mut_eq, hc, hv]

theorem tree_build_order_independent_witness :
    (Fdt.finish { Fdt.new [] with root := applyOps (Fdt.new []).root demoOps1 }).1 =
      (Fdt.finish { Fdt.new [] with root := applyOps (Fdt.new []).root demoOps2 }).1 := by
  have hwf : NodeWF (Fdt.new []).root := by
    show NodeWF (FdtNode.mk [] [] [])
    refine NodeWF.mk _ _ _ ?_ ?_ ?_
    · simp [keysSorted]
    · simp [keysSorted]
    · intro kc hm
      simp at hm
  have heq : applyOps (Fdt.new []).root demoOps1 = applyOps (Fdt.new []).root demoOps2 := by
    rfl
  have hmaps : TreeMapsEq (applyOps (Fdt.new []).root demoOps1)
      (applyOps (Fdt.new []).root demoOps2) := by
    rw [heq]
    exact TreeMapsEq.refl _
  exact tree_build_order_independent.1 (Fdt.new []) demoOps1 demoOps2 hwf hmaps

end CrosFdt
